import Mathlib

/-!
# Verification of the `file_transpose` benchmark core

A shallow embedding of `src/main.rs`.  Files are modelled as `List Nat`
(byte values); positional writes are `List.set`; `File::set_len` is
`setLen`.  The raw syscall level — `File::read`, `read_at` — is
modelled as a full read of the requested in-bounds span, the
deterministic behaviour of regular-file I/O.  The in-process
`BufReader` logic of the buffered strategy is modelled faithfully
(`bufReadStep`): its internal buffer refills only when empty, so a
read can deterministically return fewer bytes than requested at a fill
boundary, and the source discards the returned count.  Fallible steps
— `unwrap` on an empty-vector `first()`, and `memmap`'s refusal to map
a zero-length file — are modelled with `Option`.
-/

/-- Matrix dimensions, from `struct Dimensions` in `main.rs`:
`size` total bytes, interpreted as `rows` rows of `cols` bytes. -/
structure Dimensions where
  size : Nat
  rows : Nat
  cols : Nat
deriving DecidableEq, Repr

/-- Model of `File::set_len n`: truncate to `n` bytes or zero-extend. -/
def setLen (l : List Nat) (n : Nat) : List Nat :=
  l.take n ++ List.replicate (n - l.length) 0

/-- Model of a positional write (`write_at`): overwrite bytes of `l`
starting at `off` with `data`, byte by byte.  (All writes performed by
the program are within the file extent fixed by `set_len`.) -/
def writeBytes : List Nat → Nat → List Nat → List Nat
  | l, _, [] => l
  | l, off, b :: rest => writeBytes (l.set off b) (off + 1) rest

/-- Model of a positional read of `len` bytes at offset `off`
(`read_at` into a `len`-byte row buffer). -/
def readBytes (l : List Nat) (off len : Nat) : List Nat :=
  (l.drop off).take len

/-- The doubly nested transpose loop
`for i in 0..rows { for j in 0..cols { out[j*rows+i] = read i j } }`
shared verbatim by `in_memory`, `mmap_solution` and `disk_io_solution`. -/
def transposeLoop (rows cols : Nat) (readf : Nat → Nat → Nat) (out0 : List Nat) : List Nat :=
  (List.range rows).foldl
    (fun acc i =>
      (List.range cols).foldl
        (fun acc2 j => acc2.set (j * rows + i) (readf i j)) acc)
    out0

/-- Model of `fn in_memory` (WholeBufferTranspose): read the whole input into a
buffer, allocate `vec![0; size]`, run the transpose loop, and write the
buffer out; the output file content is exactly `output_buff`. -/
def in_memory (d : Dimensions) (input : List Nat) : List Nat :=
  let input_buff := input
  let output_buff := List.replicate d.size 0
  transposeLoop d.rows d.cols (fun i j => input_buff.getD (i * d.cols + j) 0) output_buff

/-- Model of `fn mmap_solution` (MappedTranspose): the output file is opened
*without* truncation (it may hold `prior` content), `set_len size` is
applied, and the identical index mapping is written through the map.
`Mmap::map` / `MmapMut::map_mut` of the `memmap` crate return an error
for a zero-length file, so the function fails (`none`) when the input
file is empty or `size = 0`. -/
def mmap_solution (d : Dimensions) (input prior : List Nat) : Option (List Nat) :=
  if input.length = 0 ∨ d.size = 0 then none
  else some (transposeLoop d.rows d.cols (fun i j => input.getD (i * d.cols + j) 0)
    (setLen prior d.size))

/-- Model of `fn disk_io_solution` (PositionalIOTranspose): output is created
with truncation then `set_len size` (all zero bytes); per source row a
positional read of `cols` bytes at `i*cols` fills `input_row_buf`, then
each byte is written alone at offset `j*rows + i`. -/
def disk_io_solution (d : Dimensions) (input : List Nat) : List Nat :=
  (List.range d.rows).foldl
    (fun acc i =>
      let input_row_buf := readBytes input (i * d.cols) d.cols
      (List.range d.cols).foldl
        (fun acc2 j => writeBytes acc2 (j * d.rows + i) [input_row_buf.getD j 0]) acc)
    (setLen [] d.size)

/-- The 75-character cycle written by `setup_file`. -/
def letters : List Nat :=
  "abcdefghijklmnopqrstuvwxyzABCDEFGHIJKLMNOPQRSTUVWXYZ0123456789!@#$^&*()-+[]".data.map Char.toNat

/-- The deterministic dataset: `size` bytes of `letters` cycled
(`letters.bytes().cycle()` taken `size` times). -/
def patternBytes (size : Nat) : List Nat :=
  (List.range size).map (fun i => letters.getD (i % letters.length) 0)

/-- Model of `fn setup_file` (DatasetGenerator).  The argument `existing` is the
file found at the target path (`none` = missing; `OpenOptions` with
`create(true)` and no truncation makes a missing file empty).  If the
length already equals `size` nothing is written; otherwise `set_len`
then the full `size`-byte pattern is written from position 0, so the
final content is exactly the pattern. -/
def setup_file (size : Nat) (existing : Option (List Nat)) : List Nat :=
  let current := existing.getD []
  if current.length ≠ size then patternBytes size else current

/-- The comparison loop of `fn file_eq_assert`:
`while file_a.read(&mut input_buf_a)? > 0 { ... }`, where a read fills
at most `bufLen` bytes starting at `pos`.  A zero-byte read ends the
loop with `true`. -/
def fileEqLoop (a b : List Nat) (bufLen pos : Nat) : Bool :=
  if _h : 0 < ((a.drop pos).take bufLen).length then
    if (a.drop pos).take bufLen ≠ (b.drop pos).take bufLen then false
    else fileEqLoop a b bufLen (pos + ((a.drop pos).take bufLen).length)
  else true
termination_by a.length - pos
decreasing_by
  have h1 : ((a.drop pos).take bufLen).length ≤ a.length - pos := by
    rw [List.length_take, List.length_drop]
    exact Nat.min_le_right _ _
  omega

/-- Model of `fn file_eq_assert` (Verifier): `false` when the metadata lengths
differ, otherwise the chunked comparison loop.  Crucially the source
allocates its two buffers with `Vec::with_capacity(1024)`, which yields
vectors of **length 0**, so every `read` is a zero-byte read: the
buffer length entering the loop is 0. -/
def file_eq_assert (a b : List Nat) : Bool :=
  if a.length ≠ b.length then false
  else fileEqLoop a b 0 0

/-- The output-file path each strategy opens, from the
`PathBuf::from(...)` lines of `main.rs`. -/
def in_memory_output_path : String := "in_memory.md"

/-- Output path of `mmap_solution`. -/
def mmap_output_path : String := "mmap.md"

/-- Output path of `disk_io_solution`. -/
def disk_io_output_path : String := "disk_io.md"

/-- Output path of `buffered_disk_io_solution` (also `"disk_io.md"` in
the source). -/
def buffered_disk_io_output_path : String := "disk_io.md"

/-- Output path of `join_file_handles`. -/
def join_output_path : String := "catted_cols.md"

/-- Rust `Result::and`: `a.and(b)` is `Err e` when `a = Err e`,
otherwise `b`. -/
def resultAnd {α β : Type} (a : Except String α) (b : Except String β) : Except String β :=
  match a with
  | .error e => .error e
  | .ok _ => b

/-- The error plumbing at the end of `fn join_file_handles`:
`let (output_file, duration) = delete_result.and(io_result)?;`.
Given the already-computed transform result and cleanup result, this is
the value the function surfaces. -/
def join_surfaced_result (io_result : Except String (List Nat))
    (delete_result : Except String Unit) : Except String (List Nat) :=
  resultAnd delete_result io_result

/-- Ceiling square root on naturals: the value of
`(size as f64).sqrt().ceil() as u64` (exact for every `2^k`, `k < 64`,
since such values and their correctly rounded square roots stay far
below the 2^52 mantissa limit). -/
def ceilSqrt (n : Nat) : Nat :=
  if Nat.sqrt n * Nat.sqrt n = n then Nat.sqrt n else Nat.sqrt n + 1

/-- Fuel-driven search for the least power of two `≥ n`: double `acc`
until it reaches `n`.  Since `acc` doubles each step, `n` steps always
suffice starting from 1. -/
def npotAux (n : Nat) : Nat → Nat → Nat
  | 0, acc => acc
  | fuel + 1, acc => if n ≤ acc then acc else npotAux n fuel (2 * acc)

/-- Rust `u64::next_power_of_two`: the least power of two `≥ n`
(1 for `n ≤ 1`; no overflow occurs in this program's domain). -/
def nextPowerOfTwo (n : Nat) : Nat := npotAux n n 1

/-- The dimension computation at the top of `fn _main`:
`size = 2^log2_size`, `rows = npot(ceil(sqrt(size)))`, `cols = size/rows`. -/
def planDimensions (log2_size : Nat) : Dimensions :=
  let size := 2 ^ log2_size
  let rows := nextPowerOfTwo (ceilSqrt size)
  let cols := size / rows
  ⟨size, rows, cols⟩

/-- The constant `BUFF_SIZE = 2usize.pow(10)` of
`buffered_disk_io_solution`. -/
def BUFF_SIZE : Nat := 2 ^ 10

/-- The flush pass of `buffered_disk_io_solution`:
`output_buff_buff.iter().enumerate().try_for_each(|(column_index, col_buf)|
 output_file.write_at(col_buf, write_index + column_index * rows))`. -/
def flushBufs (rows write_index : Nat) : List (List Nat) → Nat → List Nat → List Nat
  | [], _, out => out
  | col_buf :: rest, column_index, out =>
      flushBufs rows write_index rest (column_index + 1)
        (writeBytes out (write_index + column_index * rows) col_buf)

/-- Internal-buffer state of `BufReader::fill_buf`: the reader refills
its buffer from the file *only when it is empty*.  `consumed` is the
number of bytes handed to callers so far; `filled` the number of bytes
pulled from the file into the internal buffer so far; `len` the file
length.  A refill pulls up to `capacity` further bytes. -/
def bufFill (capacity len consumed filled : Nat) : Nat :=
  if filled - consumed = 0 then min (filled + capacity) len else filled

/-- One `BufReader::read` call requesting `n` bytes, following the
standard-library implementation: if the internal buffer is empty and
the request is at least the capacity, the file is read directly;
otherwise `fill_buf` (which refills only when empty) is followed by a
copy of `min(available, n)` bytes — possibly *fewer than `n`* when the
request straddles a fill boundary.  Returns
`(count handed over, consumed after, filled after)`. -/
def bufReadStep (capacity len consumed filled n : Nat) : Nat × Nat × Nat :=
  if filled - consumed = 0 ∧ capacity ≤ n then
    (min n (len - consumed), consumed + min n (len - consumed),
      consumed + min n (len - consumed))
  else
    (min (bufFill capacity len consumed filled - consumed) n,
      consumed + min (bufFill capacity len consumed filled - consumed) n,
      bufFill capacity len consumed filled)

/-- One `input_file_reader.read(&mut input_row_buff)` call of
`buffered_disk_io_solution`: the reader hands over its count of bytes
(sequential file bytes starting at `consumed`), which overwrite the
*front* of the row buffer; the tail keeps its previous, stale content,
because the source discards the returned count. -/
def readRowBuff (capacity : Nat) (input : List Nat) (consumed filled : Nat)
    (row_buff : List Nat) : List Nat :=
  readBytes input consumed
      (bufReadStep capacity input.length consumed filled row_buff.length).1 ++
    row_buff.drop (bufReadStep capacity input.length consumed filled row_buff.length).1

/-- One iteration of the row loop of `buffered_disk_io_solution`: a
`BufReader::read` into the reused row buffer, push each byte of the
(possibly partially refreshed) buffer onto its column accumulator (the
rayon zip of the accumulator vector with the row buffer), then flush
whenever `output_buff_buff.first().unwrap().len() >= BUFF_SIZE` or the
last row was absorbed.  `first()` on the empty accumulator vector
(`cols = 0`) makes the `unwrap` panic, modelled by `none`.  The state
is `(out, bufs, write_index, consumed, filled, row_buff)`. -/
def buffered_step (d : Dimensions) (input : List Nat)
    (st : Option (List Nat × List (List Nat) × Nat × Nat × Nat × List Nat))
    (row_index : Nat) :
    Option (List Nat × List (List Nat) × Nat × Nat × Nat × List Nat) :=
  match st with
  | none => none
  | some (out, bufs, write_index, consumed, filled, row_buff) =>
    match (List.zipWith (fun col_buf v => col_buf ++ [v]) bufs
        (readRowBuff (BUFF_SIZE * 30) input consumed filled row_buff)).head? with
    | none => none
    | some firstBuf =>
      if BUFF_SIZE ≤ firstBuf.length ∨ row_index = d.rows - 1 then
        some (flushBufs d.rows write_index
            (List.zipWith (fun col_buf v => col_buf ++ [v]) bufs
              (readRowBuff (BUFF_SIZE * 30) input consumed filled row_buff)) 0 out,
          (List.zipWith (fun col_buf v => col_buf ++ [v]) bufs
            (readRowBuff (BUFF_SIZE * 30) input consumed filled row_buff)).map
            (fun _ => ([] : List Nat)),
          row_index + 1,
          (bufReadStep (BUFF_SIZE * 30) input.length consumed filled row_buff.length).2.1,
          (bufReadStep (BUFF_SIZE * 30) input.length consumed filled row_buff.length).2.2,
          readRowBuff (BUFF_SIZE * 30) input consumed filled row_buff)
      else
        some (out, List.zipWith (fun col_buf v => col_buf ++ [v]) bufs
            (readRowBuff (BUFF_SIZE * 30) input consumed filled row_buff),
          write_index,
          (bufReadStep (BUFF_SIZE * 30) input.length consumed filled row_buff.length).2.1,
          (bufReadStep (BUFF_SIZE * 30) input.length consumed filled row_buff.length).2.2,
          readRowBuff (BUFF_SIZE * 30) input consumed filled row_buff)

/-- Model of `fn buffered_disk_io_solution` (BufferedPositionalIOTranspose):
output created with truncation + `set_len size`; a `BufReader` with
capacity `BUFF_SIZE * 30 = 30720` over the input; `cols` empty
accumulators and the zero-initialised `cols`-byte row buffer
(`vec![0; cols]`); the row loop above; `none` models the panic. -/
def buffered_disk_io_solution (d : Dimensions) (input : List Nat) : Option (List Nat) :=
  ((List.range d.rows).foldl (buffered_step d input)
    (some (setLen [] d.size, List.replicate d.cols ([] : List Nat), 0, 0, 0,
      List.replicate d.cols 0))).map
    (fun st => st.1)

/-- The per-row scatter of `join_file_handles`: rayon's zip of the
`cols`-byte row buffer with the `rows` temp-file writers truncates to
the shorter side, so byte `j` is appended to temp file `j` for
`j < min cols rows` and the remaining files are untouched. -/
def scatterRow (files : List (List Nat)) (row_buf : List Nat) : List (List Nat) :=
  List.zipWith (fun f b => f ++ [b]) files row_buf ++ files.drop row_buf.length

/-- Final contents of the `rows` temp files of `join_file_handles`
after the scatter loop (each created with truncation, hence empty). -/
def joinTempFiles (d : Dimensions) (input : List Nat) : List (List Nat) :=
  (List.range d.rows).foldl
    (fun files r => scatterRow files (readBytes input (r * d.cols) d.cols))
    (List.replicate d.rows ([] : List Nat))

/-- Model of `fn join_file_handles` (RowFanOutTranspose), transform step: output
created with truncation + `set_len size`, then every temp file is
copied into it in index order starting at position 0. -/
def join_file_handles (d : Dimensions) (input : List Nat) : List Nat :=
  writeBytes (setLen [] d.size) 0 (joinTempFiles d input).flatten

/-! ## Basic properties of the file model -/

theorem length_setLen (l : List Nat) (n : Nat) : (setLen l n).length = n := by
  simp only [setLen, List.length_append, List.length_take, List.length_replicate]
  omega

theorem setLen_nil (n : Nat) : setLen [] n = List.replicate n 0 := by
  simp [setLen]

theorem length_writeBytes (data : List Nat) (l : List Nat) (off : Nat) :
    (writeBytes l off data).length = l.length := by
  induction data generalizing l off with
  | nil => rfl
  | cons b rest ih => rw [writeBytes, ih, List.length_set]

theorem getElem?_writeBytes_lt (data : List Nat) (l : List Nat) (off k : Nat)
    (h : k < off) : (writeBytes l off data)[k]? = l[k]? := by
  induction data generalizing l off with
  | nil => rfl
  | cons b rest ih =>
    rw [writeBytes, ih _ _ (by omega), List.getElem?_set_ne (by omega)]

theorem getElem?_writeBytes_ge (data : List Nat) (l : List Nat) (off k : Nat)
    (h : off + data.length ≤ k) : (writeBytes l off data)[k]? = l[k]? := by
  induction data generalizing l off with
  | nil => rfl
  | cons b rest ih =>
    rw [writeBytes, ih _ _ (by simp at h ⊢; omega),
      List.getElem?_set_ne (by simp at h; omega)]

theorem getElem?_writeBytes_mid (data : List Nat) (l : List Nat) (off k : Nat)
    (h1 : off ≤ k) (h2 : k < off + data.length) (h3 : k < l.length) :
    (writeBytes l off data)[k]? = data[k - off]? := by
  induction data generalizing l off with
  | nil => simp at h2; omega
  | cons b rest ih =>
    rw [writeBytes]
    rcases Nat.eq_or_lt_of_le h1 with heq | hlt
    · subst heq
      rw [getElem?_writeBytes_lt _ _ _ _ (by omega), Nat.sub_self]
      simp [List.getElem?_set_self (by omega : off < l.length)]
    · rw [ih _ _ (by omega) (by simp at h2 ⊢; omega) (by simpa using h3)]
      have hko : k - off = (k - (off + 1)) + 1 := by omega
      rw [hko]
      simp

/-! ## Characterization of the nested transpose loop -/

theorem foldl_set_length (r i c : Nat) (f : Nat → Nat) (acc : List Nat) :
    ((List.range c).foldl (fun a j => a.set (j * r + i) (f j)) acc).length = acc.length := by
  induction c with
  | zero => rfl
  | succ n ih =>
    rw [List.range_succ, List.foldl_append, List.foldl_cons, List.foldl_nil,
      List.length_set, ih]

theorem foldl_set_getElem? (r i c : Nat) (f : Nat → Nat) (acc : List Nat)
    (hi : i < r) (hb : r * c ≤ acc.length) (k : Nat) :
    ((List.range c).foldl (fun a j => a.set (j * r + i) (f j)) acc)[k]? =
      if k % r = i ∧ k / r < c then some (f (k / r)) else acc[k]? := by
  induction c with
  | zero => simp
  | succ n ih =>
    rw [List.range_succ, List.foldl_append, List.foldl_cons, List.foldl_nil]
    have hb' : r * n ≤ acc.length :=
      le_trans (Nat.mul_le_mul_left r (Nat.le_succ n)) hb
    have hmod : (n * r + i) % r = i := by
      rw [Nat.add_comm, Nat.add_mul_mod_self_right, Nat.mod_eq_of_lt hi]
    have hdiv : (n * r + i) / r = n := by
      rw [Nat.add_comm, Nat.add_mul_div_right _ _ (by omega : 0 < r),
        Nat.div_eq_of_lt hi]
      omega
    by_cases hk : n * r + i = k
    · subst hk
      have hlen : n * r + i < ((List.range n).foldl
          (fun a j => a.set (j * r + i) (f j)) acc).length := by
        rw [foldl_set_length]
        calc n * r + i < n * r + r := by omega
        _ = r * (n + 1) := by ring
        _ ≤ acc.length := hb
      rw [List.getElem?_set_self hlen, hmod, hdiv]
      simp
    · rw [List.getElem?_set_ne hk, ih hb']
      by_cases hc : k % r = i ∧ k / r < n
      · rw [if_pos hc, if_pos ⟨hc.1, Nat.lt_succ_of_lt hc.2⟩]
      · rw [if_neg hc]
        by_cases hc2 : k % r = i ∧ k / r < n + 1
        · exfalso
          have hdn : k / r = n := by
            rcases hc2 with ⟨hc2a, hc2b⟩
            by_contra hne
            exact hc ⟨hc2a, by omega⟩
          apply hk
          have hdm := Nat.div_add_mod k r
          rw [hdn, hc2.1] at hdm
          rw [Nat.mul_comm]
          omega
        · rw [if_neg hc2]

theorem transposeLoop_outer_length (rows cols n : Nat) (f : Nat → Nat → Nat)
    (out0 : List Nat) :
    ((List.range n).foldl
      (fun acc i => (List.range cols).foldl
        (fun acc2 j => acc2.set (j * rows + i) (f i j)) acc) out0).length =
      out0.length := by
  induction n with
  | zero => rfl
  | succ n ih =>
    rw [List.range_succ, List.foldl_append, List.foldl_cons, List.foldl_nil,
      foldl_set_length, ih]

theorem transposeLoop_length (rows cols : Nat) (f : Nat → Nat → Nat) (out0 : List Nat) :
    (transposeLoop rows cols f out0).length = out0.length := by
  unfold transposeLoop
  exact transposeLoop_outer_length rows cols rows f out0

theorem transposeLoop_outer_getElem? (rows cols : Nat) (f : Nat → Nat → Nat)
    (out0 : List Nat) (hb : rows * cols ≤ out0.length) (n : Nat) (hn : n ≤ rows) (k : Nat) :
    ((List.range n).foldl
      (fun acc i => (List.range cols).foldl
        (fun acc2 j => acc2.set (j * rows + i) (f i j)) acc) out0)[k]? =
      if k % rows < n ∧ k / rows < cols then some (f (k % rows) (k / rows))
      else out0[k]? := by
  induction n with
  | zero => simp
  | succ n ih =>
    rw [List.range_succ, List.foldl_append, List.foldl_cons, List.foldl_nil]
    have hlen : rows * cols ≤ ((List.range n).foldl
        (fun acc i => (List.range cols).foldl
          (fun acc2 j => acc2.set (j * rows + i) (f i j)) acc) out0).length := by
      clear ih
      induction n with
      | zero => exact hb
      | succ m ihm =>
        rw [List.range_succ, List.foldl_append, List.foldl_cons, List.foldl_nil,
          foldl_set_length]
        exact ihm (by omega)
    rw [foldl_set_getElem? rows n cols (fun j => f n j) _ (by omega) hlen k,
      ih (by omega)]
    by_cases hc : k % rows = n ∧ k / rows < cols
    · rw [if_pos hc, if_pos ⟨by omega, hc.2⟩, hc.1]
    · rw [if_neg hc]
      by_cases hc2 : k % rows < n ∧ k / rows < cols
      · rw [if_pos hc2, if_pos ⟨by omega, hc2.2⟩]
      · rw [if_neg hc2, if_neg (by omega)]

theorem transposeLoop_getElem? (rows cols : Nat) (f : Nat → Nat → Nat)
    (out0 : List Nat) (hlen : out0.length = rows * cols) (k : Nat) (hk : k < rows * cols) :
    (transposeLoop rows cols f out0)[k]? = some (f (k % rows) (k / rows)) := by
  have hr : 0 < rows := by
    rcases Nat.eq_zero_or_pos rows with h | h
    · subst h; simp at hk
    · exact h
  unfold transposeLoop
  rw [transposeLoop_outer_getElem? rows cols f out0 (le_of_eq hlen.symm) rows le_rfl k,
    if_pos ⟨Nat.mod_lt k hr, Nat.div_lt_of_lt_mul hk⟩]

theorem mod_of_decompose {r i j : Nat} (hi : i < r) : (j * r + i) % r = i := by
  rw [Nat.add_comm, Nat.add_mul_mod_self_right, Nat.mod_eq_of_lt hi]

theorem div_of_decompose {r i j : Nat} (hi : i < r) : (j * r + i) / r = j := by
  rw [Nat.add_comm, Nat.add_mul_div_right _ _ (by omega : 0 < r),
    Nat.div_eq_of_lt hi]
  omega

theorem decompose_lt {r c i j : Nat} (hi : i < r) (hj : j < c) : j * r + i < r * c := by
  calc j * r + i < (j + 1) * r := by
        rw [Nat.succ_mul]; omega
  _ ≤ c * r := Nat.mul_le_mul_right r hj
  _ = r * c := Nat.mul_comm c r

theorem readBytes_getD (l : List Nat) (off len j : Nat) (hj : j < len) :
    (readBytes l off len).getD j 0 = l.getD (off + j) 0 := by
  simp only [readBytes, List.getD_eq_getElem?_getD]
  rw [List.getElem?_take_of_lt hj, List.getElem?_drop]

theorem eq_of_length_and_getElem? {α : Type} {x y : List α} {s : Nat}
    (hx : x.length = s) (hy : y.length = s) (h : ∀ k < s, x[k]? = y[k]?) : x = y := by
  apply List.ext_getElem?
  intro n
  by_cases hn : n < s
  · exact h n hn
  · rw [List.getElem?_eq_none (by omega), List.getElem?_eq_none (by omega)]

/-! ## Pointwise characterization of the memory, mmap and naive disk strategies -/

theorem in_memory_length (d : Dimensions) (input : List Nat) :
    (in_memory d input).length = d.size := by
  unfold in_memory
  rw [transposeLoop_length, List.length_replicate]

theorem in_memory_getElem? (d : Dimensions) (input : List Nat)
    (hrc : d.rows * d.cols = d.size) (k : Nat) (hk : k < d.size) :
    (in_memory d input)[k]? =
      some (input.getD ((k % d.rows) * d.cols + k / d.rows) 0) := by
  unfold in_memory
  exact transposeLoop_getElem? _ _ _ _ (by simp [hrc]) k (by rw [hrc]; exact hk)

theorem mmap_solution_some (d : Dimensions) (input prior : List Nat)
    (hin : input.length ≠ 0) (hsz : d.size ≠ 0) :
    mmap_solution d input prior =
      some (transposeLoop d.rows d.cols (fun i j => input.getD (i * d.cols + j) 0)
        (setLen prior d.size)) := by
  unfold mmap_solution
  rw [if_neg (by omega)]

theorem disk_io_eq_transposeLoop (d : Dimensions) (input : List Nat) :
    disk_io_solution d input =
      transposeLoop d.rows d.cols
        (fun i j => (readBytes input (i * d.cols) d.cols).getD j 0)
        (setLen [] d.size) := rfl

theorem disk_io_solution_length (d : Dimensions) (input : List Nat) :
    (disk_io_solution d input).length = d.size := by
  rw [disk_io_eq_transposeLoop, transposeLoop_length, length_setLen]

theorem disk_io_solution_getElem? (d : Dimensions) (input : List Nat)
    (hrc : d.rows * d.cols = d.size) (k : Nat) (hk : k < d.size) :
    (disk_io_solution d input)[k]? =
      some (input.getD ((k % d.rows) * d.cols + k / d.rows) 0) := by
  rw [disk_io_eq_transposeLoop,
    transposeLoop_getElem? _ _ _ _ (by rw [length_setLen, hrc]) k (by rw [hrc]; exact hk),
    readBytes_getD _ _ _ _ (Nat.div_lt_of_lt_mul (by rw [hrc]; exact hk))]

/-! ## Claim C5: WholeBufferTranspose computes the rectangular transpose -/

/-- C5: for every input buffer of length `size = rows*cols`, `in_memory`
produces an output buffer of length `size` with
`output[j*rows + i] = input[i*cols + j]` for every `i < rows`,
`j < cols` — the out-of-place rectangular transpose — and that buffer
is the output file content. -/
theorem in_memory_is_rectangular_transpose (d : Dimensions) (input : List Nat)
    (_hlen : input.length = d.size) (hrc : d.rows * d.cols = d.size) :
    (in_memory d input).length = d.size ∧
    ∀ i < d.rows, ∀ j < d.cols,
      (in_memory d input).getD (j * d.rows + i) 0 = input.getD (i * d.cols + j) 0 := by
  refine ⟨in_memory_length d input, fun i hi j hj => ?_⟩
  have hk : j * d.rows + i < d.size := by
    rw [← hrc]; exact decompose_lt hi hj
  rw [List.getD_eq_getElem?_getD, in_memory_getElem? d input hrc _ hk,
    mod_of_decompose hi, div_of_decompose hi]
  rfl

/-- Witness for C5 at `rows = cols = 2`, `input = [1,2,3,4]`. -/
theorem in_memory_is_rectangular_transpose_witness :
    (in_memory ⟨4, 2, 2⟩ [1, 2, 3, 4]).length = 4 ∧
    ∀ i < 2, ∀ j < 2,
      (in_memory ⟨4, 2, 2⟩ [1, 2, 3, 4]).getD (j * 2 + i) 0 =
        ([1, 2, 3, 4] : List Nat).getD (i * 2 + j) 0 :=
  in_memory_is_rectangular_transpose ⟨4, 2, 2⟩ [1, 2, 3, 4] (by decide) (by decide)

/-! ## Claims C2 and C8: the Verifier -/

/-- C2 (code bug): the verifier's buffers are allocated with
`Vec::with_capacity(1024)` and hence have length 0, so every read is a
zero-byte read and the comparison loop exits immediately: two
equal-length files that differ in one byte still compare `true`,
although the claim (and the spec) require `false`. -/
theorem file_eq_assert_misses_flipped_byte :
    file_eq_assert [97] [98] = true ∧ ([97] : List Nat) ≠ [98] := by
  constructor
  · simp [file_eq_assert, fileEqLoop]
  · decide

/-- C8: when the two files have different lengths, `file_eq_assert`
returns `false` straight from the metadata comparison, before the
content loop runs. -/
theorem file_eq_assert_length_mismatch (a b : List Nat) (h : a.length ≠ b.length) :
    file_eq_assert a b = false := by
  unfold file_eq_assert
  rw [if_pos h]

/-- Witness for C8 on a 0-byte and a 1-byte file. -/
theorem file_eq_assert_length_mismatch_witness : file_eq_assert [] [0] = false :=
  file_eq_assert_length_mismatch [] [0] (by decide)

/-! ## Claim C3: error surfacing in `join_file_handles` -/

/-- C3 (code bug): the source computes
`delete_result.and(io_result)?`, and Rust's `Result::and` returns the
*receiver's* error first, so when both the transform and the cleanup
fail the surfaced error is the cleanup error — the cleanup failure
masks the transform failure, contradicting the claim. -/
theorem cleanup_error_masks_transform_error :
    join_surfaced_result (Except.error "transform failed") (Except.error "cleanup failed") =
      Except.error "cleanup failed" ∧
    ("cleanup failed" : String) ≠ "transform failed" := by
  exact ⟨rfl, by decide⟩

/-! ## Claim C4: output paths of the five strategies -/

/-- C4 (counterexample): `disk_io_solution` and
`buffered_disk_io_solution` open the *same* output path
`"disk_io.md"`, refuting "every pair of distinct strategies writes to
different output files". -/
theorem buffered_and_disk_share_output_path :
    buffered_disk_io_output_path = disk_io_output_path := rfl

/-- C4 (amended): the in-memory, mmap and join strategies have pairwise
distinct output paths, distinct also from the shared on-disk path; only
`disk_io_solution` and `buffered_disk_io_solution` collide (both on
`"disk_io.md"`), so running one of those two clobbers the other's
output. -/
theorem output_paths_distinct_except_disk_pair :
    in_memory_output_path ≠ mmap_output_path ∧
    in_memory_output_path ≠ disk_io_output_path ∧
    in_memory_output_path ≠ join_output_path ∧
    in_memory_output_path ≠ buffered_disk_io_output_path ∧
    mmap_output_path ≠ disk_io_output_path ∧
    mmap_output_path ≠ join_output_path ∧
    mmap_output_path ≠ buffered_disk_io_output_path ∧
    disk_io_output_path ≠ join_output_path ∧
    buffered_disk_io_output_path ≠ join_output_path ∧
    buffered_disk_io_output_path = disk_io_output_path := by
  refine ⟨?_, ?_, ?_, ?_, ?_, ?_, ?_, ?_, ?_, rfl⟩ <;> decide

/-! ## Claim C7: the DatasetGenerator is idempotent and deterministic -/

/-- C7: `setup_file` leaves a file that already has length `size`
untouched; on a missing file (or, the same branch, one of wrong
length) it produces exactly the `size`-byte repeating pattern.  The
definition is a pure function of `(size, existing)`, so two runs with
the same arguments are byte-identical. -/
theorem setup_file_idempotent (size : Nat) :
    (∀ c : List Nat, c.length = size → setup_file size (some c) = c) ∧
    setup_file size none = patternBytes size ∧
    (patternBytes size).length = size := by
  refine ⟨fun c hc => ?_, ?_, ?_⟩
  · simp [setup_file, hc]
  · by_cases h : size = 0
    · subst h
      simp [setup_file, patternBytes]
    · simp [setup_file, Ne.symm h]
  · simp [patternBytes]

/-- Witness for C7 at `size = 3`. -/
theorem setup_file_idempotent_witness :
    setup_file 3 (some [9, 9, 9]) = [9, 9, 9] ∧
    setup_file 3 none = patternBytes 3 ∧
    (patternBytes 3).length = 3 :=
  ⟨(setup_file_idempotent 3).1 [9, 9, 9] (by decide),
   (setup_file_idempotent 3).2.1, (setup_file_idempotent 3).2.2⟩

/-! ## Claim C6: the dimension planner -/

theorem ceilSqrt_two_pow_even (m : Nat) : ceilSqrt (2 ^ (2 * m)) = 2 ^ m := by
  have h : 2 ^ (2 * m) = 2 ^ m * 2 ^ m := by
    rw [← pow_add]
    congr 1
    omega
  rw [h]
  simp [ceilSqrt, Nat.sqrt_eq]

theorem ceilSqrt_two_pow_odd (m : Nat) :
    2 ^ m < ceilSqrt (2 ^ (2 * m + 1)) ∧ ceilSqrt (2 ^ (2 * m + 1)) ≤ 2 ^ (m + 1) := by
  have h1 : 2 ^ m ≤ Nat.sqrt (2 ^ (2 * m + 1)) := by
    rw [Nat.le_sqrt, ← pow_add]
    exact Nat.pow_le_pow_right (by omega) (by omega)
  have h2 : Nat.sqrt (2 ^ (2 * m + 1)) < 2 ^ (m + 1) := by
    rw [Nat.sqrt_lt, ← pow_add]
    exact Nat.pow_lt_pow_right (by omega) (by omega)
  have h3 : ¬ (Nat.sqrt (2 ^ (2 * m + 1)) * Nat.sqrt (2 ^ (2 * m + 1)) = 2 ^ (2 * m + 1)) := by
    intro hsq
    have hdvd : Nat.sqrt (2 ^ (2 * m + 1)) ∣ 2 ^ (2 * m + 1) :=
      ⟨Nat.sqrt (2 ^ (2 * m + 1)), hsq.symm⟩
    obtain ⟨a, _, ha2⟩ := (Nat.dvd_prime_pow Nat.prime_two).mp hdvd
    rw [ha2, ← pow_add] at hsq
    have hinj := Nat.pow_right_injective (le_refl 2) hsq
    omega
  unfold ceilSqrt
  rw [if_neg h3]
  omega

theorem npotAux_correct (n E : Nat) (hhi : n ≤ 2 ^ E)
    (hlow : ∀ e', e' < E → 2 ^ e' < n) :
    ∀ fuel e, e ≤ E → E ≤ e + fuel → npotAux n fuel (2 ^ e) = 2 ^ E := by
  intro fuel
  induction fuel with
  | zero =>
    intro e he1 he2
    have h : e = E := by omega
    rw [h]
    rfl
  | succ f ih =>
    intro e he1 he2
    by_cases hcase : e = E
    · subst hcase
      unfold npotAux
      rw [if_pos hhi]
    · have heE : e < E := lt_of_le_of_ne he1 hcase
      have hne : ¬ (n ≤ 2 ^ e) := by
        have := hlow e heE
        omega
      unfold npotAux
      rw [if_neg hne]
      have hstep : 2 * 2 ^ e = 2 ^ (e + 1) := by
        rw [pow_succ]
        ring
      rw [hstep]
      exact ih (e + 1) (by omega) (by omega)

theorem nextPowerOfTwo_two_pow (m : Nat) : nextPowerOfTwo (2 ^ m) = 2 ^ m := by
  unfold nextPowerOfTwo
  have h0 : (1 : Nat) = 2 ^ 0 := rfl
  rw [h0]
  exact npotAux_correct (2 ^ m) m le_rfl
    (fun e' he' => Nat.pow_lt_pow_right (by omega) he')
    (2 ^ m) 0 (by omega) (by have := Nat.lt_two_pow m; omega)

theorem nextPowerOfTwo_between {m t : Nat} (h1 : 2 ^ m < t) (h2 : t ≤ 2 ^ (m + 1)) :
    nextPowerOfTwo t = 2 ^ (m + 1) := by
  unfold nextPowerOfTwo
  have h0 : (1 : Nat) = 2 ^ 0 := rfl
  rw [h0]
  refine npotAux_correct t (m + 1) h2 (fun e' he' => ?_) t 0 (by omega) ?_
  · calc 2 ^ e' ≤ 2 ^ m := Nat.pow_le_pow_right (by omega) (by omega)
    _ < t := h1
  · have := Nat.lt_two_pow m
    omega

theorem planDimensions_rows (k : Nat) :
    (planDimensions k).rows = 2 ^ ((k + 1) / 2) := by
  rcases Nat.mod_two_eq_zero_or_one k with h | h
  · obtain ⟨m, hm⟩ : ∃ m, k = 2 * m := ⟨k / 2, by omega⟩
    subst hm
    show nextPowerOfTwo (ceilSqrt (2 ^ (2 * m))) = 2 ^ ((2 * m + 1) / 2)
    rw [ceilSqrt_two_pow_even, nextPowerOfTwo_two_pow]
    congr 1
    omega
  · obtain ⟨m, hm⟩ : ∃ m, k = 2 * m + 1 := ⟨k / 2, by omega⟩
    subst hm
    show nextPowerOfTwo (ceilSqrt (2 ^ (2 * m + 1))) = 2 ^ ((2 * m + 1 + 1) / 2)
    obtain ⟨hlo, hhi⟩ := ceilSqrt_two_pow_odd m
    rw [nextPowerOfTwo_between hlo hhi]
    congr 1
    omega

theorem planDimensions_cols (k : Nat) : (planDimensions k).cols = 2 ^ (k / 2) := by
  show 2 ^ k / nextPowerOfTwo (ceilSqrt (2 ^ k)) = 2 ^ (k / 2)
  have hr : nextPowerOfTwo (ceilSqrt (2 ^ k)) = 2 ^ ((k + 1) / 2) := planDimensions_rows k
  rw [hr, Nat.pow_div (by omega) (by omega)]
  congr 1
  omega

/-- C6: for every `log2_size` whose `2^log2_size` fits in `u64`, the
planned `Dimensions` satisfy `size = 2^log2_size`,
`rows = next_power_of_two(ceil(sqrt(size)))`, `cols = size / rows`,
`rows * cols = size` and `rows ≥ cols`. -/
theorem planner_invariants (log2_size : Nat) (_h : log2_size < 64) :
    (planDimensions log2_size).size = 2 ^ log2_size ∧
    (planDimensions log2_size).rows = nextPowerOfTwo (ceilSqrt ((planDimensions log2_size).size)) ∧
    (planDimensions log2_size).cols = (planDimensions log2_size).size / (planDimensions log2_size).rows ∧
    (planDimensions log2_size).rows * (planDimensions log2_size).cols = (planDimensions log2_size).size ∧
    (planDimensions log2_size).cols ≤ (planDimensions log2_size).rows := by
  refine ⟨rfl, rfl, rfl, ?_, ?_⟩
  · rw [planDimensions_rows, planDimensions_cols]
    show _ = 2 ^ log2_size
    rw [← pow_add]
    congr 1
    omega
  · rw [planDimensions_rows, planDimensions_cols]
    exact Nat.pow_le_pow_right (by omega) (by omega)

/-! ## The fan-out strategy: temp-file contents and concatenation -/

theorem readBytes_length (l : List Nat) (off len : Nat) (h : off + len ≤ l.length) :
    (readBytes l off len).length = len := by
  simp only [readBytes, List.length_take, List.length_drop]
  omega

theorem readBytes_eq_map (l : List Nat) (off len : Nat) (h : off + len ≤ l.length) :
    readBytes l off len = (List.range len).map (fun j => l.getD (off + j) 0) := by
  refine eq_of_length_and_getElem? (readBytes_length l off len h)
    (by simp) (fun k hk => ?_)
  rw [readBytes, List.getElem?_take_of_lt hk, List.getElem?_drop,
    List.getElem?_map, List.getElem?_range hk]
  rw [List.getElem?_eq_getElem (by omega : off + k < l.length)]
  simp [List.getD_eq_getElem?_getD, List.getElem?_eq_getElem (by omega : off + k < l.length)]

theorem length_scatterRow (files : List (List Nat)) (rb : List Nat) :
    (scatterRow files rb).length = files.length := by
  simp only [scatterRow, List.length_append, List.length_zipWith, List.length_drop]
  omega

theorem getElem?_scatterRow_lt (files : List (List Nat)) (rb : List Nat) (j : Nat)
    (hj : j < rb.length) (hjf : j < files.length) :
    (scatterRow files rb)[j]? = some (files.getD j [] ++ [rb.getD j 0]) := by
  unfold scatterRow
  rw [List.getElem?_append_left (by rw [List.length_zipWith]; omega),
    List.getElem?_zipWith',
    List.getElem?_eq_getElem hjf, List.getElem?_eq_getElem hj]
  simp [List.getD_eq_getElem?_getD, List.getElem?_eq_getElem hjf,
    List.getElem?_eq_getElem hj]

theorem getElem?_scatterRow_ge (files : List (List Nat)) (rb : List Nat) (j : Nat)
    (hj : rb.length ≤ j) (hle : rb.length ≤ files.length) :
    (scatterRow files rb)[j]? = files[j]? := by
  unfold scatterRow
  rw [List.getElem?_append_right (by rw [List.length_zipWith]; omega),
    List.length_zipWith, List.getElem?_drop]
  congr 1
  omega

theorem joinTempFiles_fold_spec (d : Dimensions) (input : List Nat)
    (hlen : input.length = d.size) (hrc : d.rows * d.cols = d.size)
    (hconv : d.cols ≤ d.rows) :
    ∀ r, r ≤ d.rows →
      ((List.range r).foldl
        (fun files rr => scatterRow files (readBytes input (rr * d.cols) d.cols))
        (List.replicate d.rows ([] : List Nat))).length = d.rows ∧
      ∀ j, j < d.rows →
        ((List.range r).foldl
          (fun files rr => scatterRow files (readBytes input (rr * d.cols) d.cols))
          (List.replicate d.rows ([] : List Nat)))[j]? =
        some (if j < d.cols
          then (List.range r).map (fun i => input.getD (i * d.cols + j) 0)
          else []) := by
  intro r
  induction r with
  | zero =>
    intro _
    refine ⟨by simp, fun j hj => ?_⟩
    rw [List.range_zero, List.foldl_nil, List.getElem?_replicate_of_lt hj]
    simp
  | succ r ih =>
    intro hr
    obtain ⟨ihlen, ihget⟩ := ih (by omega)
    have hrow : r * d.cols + d.cols ≤ input.length := by
      rw [hlen, ← hrc]
      calc r * d.cols + d.cols = (r + 1) * d.cols := by ring
      _ ≤ d.rows * d.cols := Nat.mul_le_mul_right _ (by omega)
    have hrblen : (readBytes input (r * d.cols) d.cols).length = d.cols :=
      readBytes_length input _ _ hrow
    rw [List.range_succ, List.foldl_append, List.foldl_cons, List.foldl_nil]
    refine ⟨by rw [length_scatterRow, ihlen], fun j hj => ?_⟩
    by_cases hjc : j < d.cols
    · rw [getElem?_scatterRow_lt _ _ _ (by omega) (by omega),
        if_pos hjc]
      have hfj : (List.foldl
          (fun files rr => scatterRow files (readBytes input (rr * d.cols) d.cols))
          (List.replicate d.rows ([] : List Nat)) (List.range r)).getD j [] =
          (List.range r).map (fun i => input.getD (i * d.cols + j) 0) := by
        rw [List.getD_eq_getElem?_getD, ihget j hj, if_pos hjc]
        rfl
      rw [hfj]
      have hrbj : (readBytes input (r * d.cols) d.cols).getD j 0 =
          input.getD (r * d.cols + j) 0 := readBytes_getD input _ _ _ hjc
      rw [hrbj, List.map_append]
      rfl
    · rw [getElem?_scatterRow_ge _ _ _ (by omega) (by omega),
        ihget j hj, if_neg hjc, if_neg hjc]

theorem flatten_replicate_nil (n : Nat) :
    (List.replicate n ([] : List Nat)).flatten = [] := by
  rw [List.flatten_eq_nil_iff]
  intro l hl
  exact List.eq_of_mem_replicate hl

theorem length_flatten_map_range (c r : Nat) (g : Nat → Nat → Nat) :
    (((List.range c).map (fun j => (List.range r).map (g j))).flatten).length = c * r := by
  induction c with
  | zero => simp
  | succ n ih =>
    rw [List.range_succ, List.map_append, List.flatten_append, List.length_append, ih]
    simp [Nat.succ_mul]

theorem getElem?_flatten_map_range (c r : Nat) (g : Nat → Nat → Nat) (k : Nat)
    (hk : k < c * r) :
    (((List.range c).map (fun j => (List.range r).map (g j))).flatten)[k]? =
      some (g (k / r) (k % r)) := by
  have hr : 0 < r := by
    rcases Nat.eq_zero_or_pos r with h | h
    · subst h; simp at hk
    · exact h
  induction c with
  | zero => simp at hk
  | succ n ih =>
    rw [List.range_succ, List.map_append, List.flatten_append]
    by_cases hkn : k < n * r
    · rw [List.getElem?_append_left (by rw [length_flatten_map_range]; omega)]
      exact ih hkn
    · rw [List.getElem?_append_right (by rw [length_flatten_map_range]; omega)]
      rw [length_flatten_map_range]
      have h2 : k - n * r < r := by
        have h3 : (n + 1) * r = n * r + r := by ring
        omega
      have hkd : k / r = n := by
        conv_lhs => rw [(by omega : k = n * r + (k - n * r))]
        rw [div_of_decompose h2]
      have hkm : k % r = k - n * r := by
        conv_lhs => rw [(by omega : k = n * r + (k - n * r))]
        rw [mod_of_decompose h2]
      rw [hkd, hkm]
      simp only [List.map_cons, List.map_nil, List.flatten_singleton, List.getElem?_map]
      rw [List.getElem?_range (by omega : k - n * r < r)]
      rfl

theorem joinTempFiles_eq (d : Dimensions) (input : List Nat)
    (hlen : input.length = d.size) (hrc : d.rows * d.cols = d.size)
    (hconv : d.cols ≤ d.rows) :
    (joinTempFiles d input).flatten =
      ((List.range d.cols).map
        (fun j => (List.range d.rows).map (fun i => input.getD (i * d.cols + j) 0))).flatten := by
  obtain ⟨hl, hget⟩ := joinTempFiles_fold_spec d input hlen hrc hconv d.rows le_rfl
  have hsplit : joinTempFiles d input =
      ((List.range d.cols).map
        (fun j => (List.range d.rows).map (fun i => input.getD (i * d.cols + j) 0))) ++
      List.replicate (d.rows - d.cols) ([] : List Nat) := by
    unfold joinTempFiles
    refine eq_of_length_and_getElem? hl (by simp; omega) (fun j hj => ?_)
    by_cases hjc : j < d.cols
    · rw [hget j hj, if_pos hjc,
        List.getElem?_append_left (by simp; omega),
        List.getElem?_map, List.getElem?_range hjc]
      rfl
    · rw [hget j hj, if_neg hjc,
        List.getElem?_append_right (by simp; omega)]
      rw [List.length_map, List.length_range,
        List.getElem?_replicate_of_lt (by omega)]
  rw [hsplit, List.flatten_append, flatten_replicate_nil, List.append_nil]

theorem join_file_handles_length (d : Dimensions) (input : List Nat) :
    (join_file_handles d input).length = d.size := by
  unfold join_file_handles
  rw [length_writeBytes, length_setLen]

theorem join_file_handles_getElem? (d : Dimensions) (input : List Nat)
    (hlen : input.length = d.size) (hrc : d.rows * d.cols = d.size)
    (hconv : d.cols ≤ d.rows) (k : Nat) (hk : k < d.size) :
    (join_file_handles d input)[k]? =
      some (input.getD ((k % d.rows) * d.cols + k / d.rows) 0) := by
  unfold join_file_handles
  rw [joinTempFiles_eq d input hlen hrc hconv]
  have hflat : (((List.range d.cols).map
      (fun j => (List.range d.rows).map (fun i => input.getD (i * d.cols + j) 0))).flatten).length =
      d.cols * d.rows := length_flatten_map_range _ _ _
  rw [getElem?_writeBytes_mid _ _ _ _ (by omega)
    (by rw [hflat]; rw [Nat.mul_comm, hrc]; omega)
    (by rw [length_setLen]; exact hk)]
  rw [Nat.sub_zero]
  rw [getElem?_flatten_map_range _ _ _ k (by rw [Nat.mul_comm, hrc]; exact hk)]

theorem joinTempFiles_length (d : Dimensions) (input : List Nat)
    (hlen : input.length = d.size) (hrc : d.rows * d.cols = d.size)
    (hconv : d.cols ≤ d.rows) : (joinTempFiles d input).length = d.rows :=
  (joinTempFiles_fold_spec d input hlen hrc hconv d.rows le_rfl).1

theorem joinTempFiles_getElem? (d : Dimensions) (input : List Nat)
    (hlen : input.length = d.size) (hrc : d.rows * d.cols = d.size)
    (hconv : d.cols ≤ d.rows) (j : Nat) (hj : j < d.rows) :
    (joinTempFiles d input)[j]? =
      some (if j < d.cols
        then (List.range d.rows).map (fun i => input.getD (i * d.cols + j) 0)
        else []) :=
  (joinTempFiles_fold_spec d input hlen hrc hconv d.rows le_rfl).2 j hj

/-- C10: `join_file_handles` creates `rows` temp files but the rayon
zip pairs the `cols`-byte row buffer with only the first `cols` temp
writers, so every temp file with index in `[cols, rows)` stays empty;
each temp file `j < cols` holds exactly the transposed row `j`
(`rows` bytes, entry `i` being `input[i*cols + j]`); the concatenated
output still has exactly `rows*cols = size` bytes. -/
theorem join_temp_files_invariant (d : Dimensions) (input : List Nat)
    (hlen : input.length = d.size) (hrc : d.rows * d.cols = d.size)
    (hconv : d.cols ≤ d.rows) :
    (joinTempFiles d input).length = d.rows ∧
    (∀ j, d.cols ≤ j → j < d.rows → (joinTempFiles d input)[j]? = some []) ∧
    (∀ j, j < d.cols →
      ((joinTempFiles d input).getD j []).length = d.rows ∧
      ∀ i, i < d.rows →
        ((joinTempFiles d input).getD j []).getD i 0 = input.getD (i * d.cols + j) 0) ∧
    (join_file_handles d input).length = d.size := by
  refine ⟨joinTempFiles_length d input hlen hrc hconv,
    fun j hj1 hj2 => ?_, fun j hj => ?_, join_file_handles_length d input⟩
  · rw [joinTempFiles_getElem? d input hlen hrc hconv j hj2, if_neg (by omega)]
  · have hjr : j < d.rows := by omega
    have hval : (joinTempFiles d input).getD j [] =
        (List.range d.rows).map (fun i => input.getD (i * d.cols + j) 0) := by
      rw [List.getD_eq_getElem?_getD,
        joinTempFiles_getElem? d input hlen hrc hconv j hjr, if_pos hj]
      rfl
    rw [hval]
    refine ⟨by simp, fun i hi => ?_⟩
    rw [List.getD_eq_getElem?_getD, List.getElem?_map, List.getElem?_range hi]
    rfl

/-- Witness for C10 at `rows = 2 > cols = 1`, `input = [5, 6]`. -/
theorem join_temp_files_invariant_witness :
    (joinTempFiles ⟨2, 2, 1⟩ [5, 6]).length = 2 ∧
    (∀ j, 1 ≤ j → j < 2 → (joinTempFiles ⟨2, 2, 1⟩ [5, 6])[j]? = some []) ∧
    (∀ j, j < 1 →
      ((joinTempFiles ⟨2, 2, 1⟩ [5, 6]).getD j []).length = 2 ∧
      ∀ i, i < 2 →
        ((joinTempFiles ⟨2, 2, 1⟩ [5, 6]).getD j []).getD i 0 =
          ([5, 6] : List Nat).getD (i * 1 + j) 0) ∧
    (join_file_handles ⟨2, 2, 1⟩ [5, 6]).length = 2 :=
  join_temp_files_invariant ⟨2, 2, 1⟩ [5, 6] (by decide) (by decide) (by decide)

/-! ## The buffered strategy: flush pass and accumulator invariant -/

theorem length_flushBufs (rows wi : Nat) (bufs : List (List Nat)) (c0 : Nat)
    (out : List Nat) : (flushBufs rows wi bufs c0 out).length = out.length := by
  induction bufs generalizing c0 out with
  | nil => rfl
  | cons b rest ih =>
    rw [flushBufs, ih, length_writeBytes]

theorem head?_map_range {α : Type} (H : Nat → α) (c : Nat) (hc : 0 < c) :
    ((List.range c).map H).head? = some (H 0) := by
  cases c with
  | zero => omega
  | succ n =>
    rw [List.range_succ_eq_map, List.map_cons, List.head?_cons]

theorem flushBufs_spec (rows wi L : Nat) (v : Nat → Nat → Nat)
    (hrow : 0 < rows) (hwL : wi + L ≤ rows) :
    ∀ (cnt c0 : Nat) (out : List Nat), rows * (c0 + cnt) ≤ out.length →
    ∀ k,
    (flushBufs rows wi
      ((List.range cnt).map (fun t => (List.range L).map (fun s => v (c0 + t) s)))
      c0 out)[k]? =
      if c0 ≤ k / rows ∧ k / rows < c0 + cnt ∧ wi ≤ k % rows ∧ k % rows < wi + L
      then some (v (k / rows) (k % rows - wi))
      else out[k]? := by
  intro cnt
  induction cnt with
  | zero =>
    intro c0 out hout k
    rw [List.range_zero, List.map_nil]
    show out[k]? = _
    rw [if_neg (by omega)]
  | succ n ih =>
    intro c0 out hout k
    rw [List.range_succ_eq_map, List.map_cons, List.map_map]
    have hfun : ((fun t => (List.range L).map (fun s => v (c0 + t) s)) ∘ Nat.succ) =
        (fun t => (List.range L).map (fun s => v (c0 + 1 + t) s)) := by
      funext t
      show (List.range L).map (fun s => v (c0 + Nat.succ t) s) = _
      have h : c0 + Nat.succ t = c0 + 1 + t := by omega
      rw [h]
    rw [hfun, flushBufs]
    have hout' : rows * (c0 + 1 + n) ≤
        (writeBytes out (wi + c0 * rows) ((List.range L).map (fun s => v (c0 + 0) s))).length := by
      rw [length_writeBytes]
      have h : rows * (c0 + 1 + n) = rows * (c0 + (n + 1)) := by ring
      omega
    rw [ih (c0 + 1) _ hout' k]
    have hdm := Nat.div_add_mod k rows
    have hmlt : k % rows < rows := Nat.mod_lt k hrow
    have hcomm : c0 * rows = rows * c0 := Nat.mul_comm c0 rows
    have hdata : ((List.range L).map (fun s => v (c0 + 0) s)).length = L := by simp
    by_cases hc' : c0 + 1 ≤ k / rows ∧ k / rows < c0 + 1 + n ∧
        wi ≤ k % rows ∧ k % rows < wi + L
    · rw [if_pos hc', if_pos (by omega)]
    · rw [if_neg hc']
      rcases Nat.lt_trichotomy (k / rows) c0 with hlt | heq | hgt
      · -- untouched: k is left of the written region
        have hklt : k < wi + c0 * rows := by
          have h1 : rows * (k / rows + 1) ≤ rows * c0 := Nat.mul_le_mul_left rows (by omega)
          have h2 : rows * (k / rows + 1) = rows * (k / rows) + rows := by ring
          omega
        rw [getElem?_writeBytes_lt _ _ _ _ hklt, if_neg (by omega)]
      · -- same column as the first written buffer
        have hdm2 : rows * c0 + k % rows = k := by rw [← heq]; exact hdm
        by_cases hmod : wi ≤ k % rows ∧ k % rows < wi + L
        · -- inside the region written for column c0
          have hge : wi + c0 * rows ≤ k := by omega
          have hlt2 : k < wi + c0 * rows + ((List.range L).map (fun s => v (c0 + 0) s)).length := by
            rw [hdata]; omega
          have hlen2 : k < out.length := by
            have h1 : rows * (c0 + (n + 1)) = rows * c0 + rows * n + rows := by ring
            omega
          rw [getElem?_writeBytes_mid _ _ _ _ hge hlt2 hlen2]
          have hidx : k - (wi + c0 * rows) = k % rows - wi := by omega
          rw [hidx, List.getElem?_map, List.getElem?_range (by omega : k % rows - wi < L)]
          rw [if_pos (by omega)]
          have hcol : c0 + 0 = k / rows := by omega
          rw [hcol]
          rfl
        · -- same column but outside the `[wi, wi+L)` row window
          rcases (by omega : k % rows < wi ∨ wi + L ≤ k % rows) with hm | hm
          · have hklt : k < wi + c0 * rows := by omega
            rw [getElem?_writeBytes_lt _ _ _ _ hklt, if_neg (by omega)]
          · have hkge : wi + c0 * rows + ((List.range L).map (fun s => v (c0 + 0) s)).length ≤ k := by
              rw [hdata]; omega
            rw [getElem?_writeBytes_ge _ _ _ _ hkge, if_neg (by omega)]
      · -- k in a later column: beyond the written region
        have hkge : wi + c0 * rows + ((List.range L).map (fun s => v (c0 + 0) s)).length ≤ k := by
          rw [hdata]
          have h1 : rows * (c0 + 1) ≤ rows * (k / rows) := Nat.mul_le_mul_left rows (by omega)
          have h2 : rows * (c0 + 1) = rows * c0 + rows := by ring
          omega
        rw [getElem?_writeBytes_ge _ _ _ _ hkge, if_neg (by omega)]

theorem bufReadStep_full (C len cols rows r filled : Nat)
    (hcols : 0 < cols) (hlen : len = rows * cols) (hr : r < rows)
    (halign : cols ∣ C ∨ C ≤ cols ∨ len ≤ C)
    (hcf : r * cols ≤ filled) (hfl : filled ≤ len)
    (hfill_inv : cols < C → (filled = len ∨ C ∣ filled))
    (hbypass_inv : C ≤ cols → filled = r * cols) :
    (bufReadStep C len (r * cols) filled cols).1 = cols ∧
    (bufReadStep C len (r * cols) filled cols).2.1 = r * cols + cols ∧
    r * cols + cols ≤ (bufReadStep C len (r * cols) filled cols).2.2 ∧
    (bufReadStep C len (r * cols) filled cols).2.2 ≤ len ∧
    (cols < C → ((bufReadStep C len (r * cols) filled cols).2.2 = len ∨
      C ∣ (bufReadStep C len (r * cols) filled cols).2.2)) ∧
    (C ≤ cols → (bufReadStep C len (r * cols) filled cols).2.2 = r * cols + cols) := by
  have hrc1 : r * cols + cols ≤ len := by
    rw [hlen]
    have h1 : (r + 1) * cols ≤ rows * cols := Nat.mul_le_mul_right _ (by omega)
    have h2 : (r + 1) * cols = r * cols + cols := by ring
    omega
  by_cases hby : filled - r * cols = 0 ∧ C ≤ cols
  · -- empty internal buffer, request at least the capacity: bypass read
    have htrip : bufReadStep C len (r * cols) filled cols =
        (cols, r * cols + cols, r * cols + cols) := by
      unfold bufReadStep
      rw [if_pos hby]
      have hmin : min cols (len - r * cols) = cols := by omega
      rw [hmin]
    rw [htrip]
    exact ⟨rfl, rfl, le_rfl, hrc1, fun h => absurd hby.2 (by omega), fun _ => rfl⟩
  · by_cases hemp : filled - r * cols = 0
    · -- empty internal buffer, request below capacity: refill then copy
      have hfe : filled = r * cols := by omega
      have hcC : cols < C := by
        rcases Nat.lt_or_ge cols C with h | h
        · exact h
        · exact absurd ⟨hemp, h⟩ hby
      have hfill2 : bufFill C len (r * cols) filled = min (filled + C) len := by
        unfold bufFill
        rw [if_pos hemp]
      have hnread : min (bufFill C len (r * cols) filled - r * cols) cols = cols := by
        rw [hfill2, hfe]
        omega
      have htrip : bufReadStep C len (r * cols) filled cols =
          (cols, r * cols + cols, min (filled + C) len) := by
        unfold bufReadStep
        rw [if_neg hby, hnread, hfill2]
      rw [htrip]
      dsimp only
      refine ⟨rfl, rfl, ?_, by omega, fun _ => ?_, fun h => absurd h (by omega)⟩
      · rw [hfe]
        omega
      · rcases (by omega : min (filled + C) len = len ∨
            (min (filled + C) len = filled + C ∧ filled + C < len)) with h1 | ⟨h1, _⟩
        · exact Or.inl h1
        · refine Or.inr ?_
          rw [h1]
          have hCf : C ∣ filled := by
            rcases hfill_inv hcC with hf | hf
            · exfalso
              omega
            · exact hf
          exact dvd_add hCf (dvd_refl C)
    · -- non-empty internal buffer: copy from what is available
      have hcC : cols < C := by
        rcases Nat.lt_or_ge cols C with h | h
        · exact h
        · have := hbypass_inv h
          omega
      have hfill2 : bufFill C len (r * cols) filled = filled := by
        unfold bufFill
        rw [if_neg hemp]
      have havail : cols ≤ filled - r * cols := by
        rcases hfill_inv hcC with hf | hf
        · omega
        · rcases halign with ha | ha | ha
          · have h1 : cols ∣ filled := dvd_trans ha hf
            have h2 : cols ∣ r * cols := dvd_mul_left cols r
            have h3 : cols ∣ filled - r * cols := Nat.dvd_sub' h1 h2
            exact Nat.le_of_dvd (by omega) h3
          · omega
          · have h0 : 0 < filled := by omega
            have h1 : C ≤ filled := Nat.le_of_dvd h0 hf
            omega
      have hnread : min (bufFill C len (r * cols) filled - r * cols) cols = cols := by
        rw [hfill2]
        omega
      have htrip : bufReadStep C len (r * cols) filled cols =
          (cols, r * cols + cols, filled) := by
        unfold bufReadStep
        rw [if_neg hby, hnread, hfill2]
      rw [htrip]
      dsimp only
      exact ⟨rfl, rfl, by omega, hfl, fun _ => hfill_inv hcC, fun h => absurd h (by omega)⟩

/-- Demonstration of the modelled `BufReader` short read at a fill
boundary: with capacity `30720` over a 30723-byte file
(`rows = 4389`, `cols = 7`, in the claim's scope since
`4389 * 7 = 30723` and `4389 ≥ 7`), after 4388 full 7-byte reads
(`consumed = 30716`) and one internal fill (`filled = 30720`), the
next read hands over only the 4 bytes left in the internal buffer —
fewer than the 7 requested — and the source discards the count
(main.rs line 442), leaving stale bytes in the row buffer.  This is
why the cross-strategy equivalence carries the read-alignment
hypothesis. -/
theorem bufReadStep_short_read_at_fill_boundary :
    (bufReadStep (BUFF_SIZE * 30) 30723 30716 30720 7).1 = 4 ∧ (4 : Nat) < 7 ∧
    4389 * 7 = 30723 ∧ 7 ≤ 4389 := by decide

theorem buffered_step_eq (d : Dimensions) (input : List Nat) (out : List Nat)
    (bufs : List (List Nat)) (wi consumed filled : Nat) (row_buff : List Nat)
    (r : Nat) (firstBuf : List Nat)
    (hhead : (List.zipWith (fun col_buf v => col_buf ++ [v]) bufs
      (readRowBuff (BUFF_SIZE * 30) input consumed filled row_buff)).head? = some firstBuf) :
    buffered_step d input (some (out, bufs, wi, consumed, filled, row_buff)) r =
      if BUFF_SIZE ≤ firstBuf.length ∨ r = d.rows - 1 then
        some (flushBufs d.rows wi
            (List.zipWith (fun col_buf v => col_buf ++ [v]) bufs
              (readRowBuff (BUFF_SIZE * 30) input consumed filled row_buff)) 0 out,
          (List.zipWith (fun col_buf v => col_buf ++ [v]) bufs
            (readRowBuff (BUFF_SIZE * 30) input consumed filled row_buff)).map
            (fun _ => ([] : List Nat)),
          r + 1,
          (bufReadStep (BUFF_SIZE * 30) input.length consumed filled row_buff.length).2.1,
          (bufReadStep (BUFF_SIZE * 30) input.length consumed filled row_buff.length).2.2,
          readRowBuff (BUFF_SIZE * 30) input consumed filled row_buff)
      else some (out, List.zipWith (fun col_buf v => col_buf ++ [v]) bufs
            (readRowBuff (BUFF_SIZE * 30) input consumed filled row_buff),
          wi,
          (bufReadStep (BUFF_SIZE * 30) input.length consumed filled row_buff.length).2.1,
          (bufReadStep (BUFF_SIZE * 30) input.length consumed filled row_buff.length).2.2,
          readRowBuff (BUFF_SIZE * 30) input consumed filled row_buff) := by
  simp only [buffered_step, hhead]

theorem buffered_fold_spec (d : Dimensions) (input : List Nat)
    (hlen : input.length = d.size) (hrc : d.rows * d.cols = d.size)
    (hcols : 0 < d.cols)
    (halign : d.cols ∣ BUFF_SIZE * 30 ∨ BUFF_SIZE * 30 ≤ d.cols ∨ d.size ≤ BUFF_SIZE * 30) :
    ∀ r, r ≤ d.rows →
    ∃ out wi consumed filled row_buff,
      (List.range r).foldl (buffered_step d input)
        (some (setLen [] d.size, List.replicate d.cols ([] : List Nat), 0, 0, 0,
          List.replicate d.cols 0)) =
        some (out,
          (List.range d.cols).map (fun j =>
            (List.range (r - wi)).map (fun s => input.getD ((wi + s) * d.cols + j) 0)),
          wi, consumed, filled, row_buff) ∧
      consumed = r * d.cols ∧
      wi ≤ r ∧
      out.length = d.size ∧
      row_buff.length = d.cols ∧
      consumed ≤ filled ∧
      filled ≤ d.size ∧
      (d.cols < BUFF_SIZE * 30 → (filled = d.size ∨ BUFF_SIZE * 30 ∣ filled)) ∧
      (BUFF_SIZE * 30 ≤ d.cols → filled = consumed) ∧
      (∀ k, k < d.size →
        out[k]? = some (if k % d.rows < wi
          then input.getD ((k % d.rows) * d.cols + k / d.rows) 0 else 0)) ∧
      (r = d.rows → 0 < d.rows → wi = d.rows) := by
  intro r
  induction r with
  | zero =>
    intro _
    refine ⟨setLen [] d.size, 0, 0, 0, List.replicate d.cols 0, ?_,
      (Nat.zero_mul d.cols).symm, le_rfl, length_setLen [] d.size,
      List.length_replicate .., le_rfl, Nat.zero_le _,
      fun _ => Or.inr (dvd_zero _), fun _ => rfl, fun k hk => ?_, ?_⟩
    · rw [List.range_zero, List.foldl_nil]
      have hb : (List.range d.cols).map
          (fun j => (List.range (0 - 0)).map (fun s => input.getD ((0 + s) * d.cols + j) 0)) =
          List.replicate d.cols ([] : List Nat) := by
        simp [List.map_const']
      exact congrArg (fun bs => some (setLen [] d.size, bs, 0, 0, 0,
        List.replicate d.cols 0)) hb.symm
    · rw [setLen_nil, List.getElem?_replicate_of_lt hk, if_neg (by omega)]
    · intro h0 hpos
      omega
  | succ r ih =>
    intro hr
    obtain ⟨out, wi, consumed, filled, row_buff, hfold, hcons, hwi, houtlen, hrblen,
      hcf, hfs, hfinv, hbinv, hout, _⟩ := ih (by omega)
    subst hcons
    have hrows : 0 < d.rows := by omega
    have hrowbound : r * d.cols + d.cols ≤ input.length := by
      rw [hlen, ← hrc]
      have h1 : (r + 1) * d.cols ≤ d.rows * d.cols := Nat.mul_le_mul_right _ (by omega)
      have h2 : (r + 1) * d.cols = r * d.cols + d.cols := by ring
      omega
    obtain ⟨hn1, hn2, hn3, hn4, hn5, hn6⟩ :=
      bufReadStep_full (BUFF_SIZE * 30) input.length d.cols d.rows r filled hcols
        (by rw [hlen, ← hrc]) (by omega)
        (by rw [hlen]; exact halign) hcf (by rw [hlen]; exact hfs)
        (fun h => by rw [hlen]; exact hfinv h) hbinv
    have hrr : readRowBuff (BUFF_SIZE * 30) input (r * d.cols) filled row_buff =
        readBytes input (r * d.cols) d.cols := by
      unfold readRowBuff
      rw [hrblen, hn1]
      have hdrop : row_buff.drop d.cols = [] := by
        rw [← hrblen]
        exact List.drop_length row_buff
      rw [hdrop, List.append_nil]
    have hrow : readBytes input (r * d.cols) d.cols =
        (List.range d.cols).map (fun j => input.getD (r * d.cols + j) 0) :=
      readBytes_eq_map input _ _ hrowbound
    have hbufs2 : List.zipWith (fun col_buf v => col_buf ++ [v])
        ((List.range d.cols).map (fun j =>
          (List.range (r - wi)).map (fun s => input.getD ((wi + s) * d.cols + j) 0)))
        ((List.range d.cols).map (fun j => input.getD (r * d.cols + j) 0)) =
        (List.range d.cols).map (fun j =>
          (List.range (r - wi + 1)).map (fun s => input.getD ((wi + s) * d.cols + j) 0)) := by
      rw [List.zipWith_map, List.zipWith_same]
      apply List.map_congr_left
      intro j _
      conv_rhs => rw [List.range_succ]
      rw [List.map_append, List.map_cons, List.map_nil]
      have h : wi + (r - wi) = r := by omega
      rw [h]
    have hhead : (List.zipWith (fun col_buf v => col_buf ++ [v])
        ((List.range d.cols).map (fun j =>
          (List.range (r - wi)).map (fun s => input.getD ((wi + s) * d.cols + j) 0)))
        (readRowBuff (BUFF_SIZE * 30) input (r * d.cols) filled row_buff)).head? =
        some ((List.range (r - wi + 1)).map (fun s => input.getD ((wi + s) * d.cols + 0) 0)) := by
      rw [hrr, hrow, hbufs2]
      exact head?_map_range _ _ hcols
    rw [List.range_succ, List.foldl_append, List.foldl_cons, List.foldl_nil, hfold,
      buffered_step_eq d input out _ wi (r * d.cols) filled row_buff r _ hhead,
      hrr, hrow, hbufs2, hrblen]
    by_cases hfl : BUFF_SIZE ≤ ((List.range (r - wi + 1)).map
        (fun s => input.getD ((wi + s) * d.cols + 0) 0)).length ∨ r = d.rows - 1
    · rw [if_pos hfl]
      refine ⟨flushBufs d.rows wi
          ((List.range d.cols).map (fun j =>
            (List.range (r - wi + 1)).map (fun s => input.getD ((wi + s) * d.cols + j) 0)))
          0 out, r + 1,
        (bufReadStep (BUFF_SIZE * 30) input.length (r * d.cols) filled d.cols).2.1,
        (bufReadStep (BUFF_SIZE * 30) input.length (r * d.cols) filled d.cols).2.2,
        (List.range d.cols).map (fun j => input.getD (r * d.cols + j) 0),
        ?_, ?_, le_rfl, ?_, by simp, ?_, ?_, ?_, ?_, ?_, fun h _ => h⟩
      · have hclear : ((List.range d.cols).map (fun j =>
            (List.range (r - wi + 1)).map (fun s => input.getD ((wi + s) * d.cols + j) 0))).map
              (fun _ => ([] : List Nat)) =
            (List.range d.cols).map (fun j =>
              (List.range (r + 1 - (r + 1))).map (fun s => input.getD ((r + 1 + s) * d.cols + j) 0)) := by
          have h00 : r + 1 - (r + 1) = 0 := by omega
          rw [h00, List.map_map]
          apply List.map_congr_left
          intro j _
          rfl
        rw [hclear]
      · rw [hn2]
        ring
      · rw [length_flushBufs, houtlen]
      · rw [hn2]
        exact hn3
      · rw [← hlen]
        exact hn4
      · intro h
        rcases hn5 h with h1 | h1
        · exact Or.inl (hlen ▸ h1)
        · exact Or.inr h1
      · intro h
        rw [hn6 h, hn2]
      · intro k hk
        have hshape : (List.range d.cols).map (fun j =>
            (List.range (r - wi + 1)).map (fun s => input.getD ((wi + s) * d.cols + j) 0)) =
            (List.range d.cols).map (fun t =>
              (List.range (r - wi + 1)).map
                (fun s => (fun c s2 => input.getD ((wi + s2) * d.cols + c) 0) (0 + t) s)) := by
          apply List.map_congr_left
          intro j _
          simp [Nat.zero_add]
        have hbound : d.rows * (0 + d.cols) ≤ out.length := by
          have h1 : d.rows * (0 + d.cols) = d.rows * d.cols := by ring
          omega
        rw [hshape, flushBufs_spec d.rows wi (r - wi + 1)
          (fun c s2 => input.getD ((wi + s2) * d.cols + c) 0) hrows (by omega)
          d.cols 0 out hbound k]
        have hdiv : k / d.rows < d.cols := Nat.div_lt_of_lt_mul (by rw [hrc]; exact hk)
        have hmlt : k % d.rows < d.rows := Nat.mod_lt k hrows
        rcases (by omega : k % d.rows < wi ∨ (wi ≤ k % d.rows ∧ k % d.rows ≤ r) ∨ r < k % d.rows)
          with hlow | hmid | hhigh
        · rw [if_neg (fun hcond => absurd hcond.2.2.1 (by omega)),
            hout k hk, if_pos hlow, if_pos (by omega)]
        · rw [if_pos ⟨Nat.zero_le _, by simpa using hdiv, hmid.1, by omega⟩]
          have h : wi + (k % d.rows - wi) = k % d.rows := by omega
          rw [h, if_pos (by omega)]
        · rw [if_neg (fun hcond => absurd hcond.2.2.2 (by omega)),
            hout k hk, if_neg (by omega), if_neg (by omega)]
    · rw [if_neg hfl]
      refine ⟨out, wi,
        (bufReadStep (BUFF_SIZE * 30) input.length (r * d.cols) filled d.cols).2.1,
        (bufReadStep (BUFF_SIZE * 30) input.length (r * d.cols) filled d.cols).2.2,
        (List.range d.cols).map (fun j => input.getD (r * d.cols + j) 0),
        ?_, ?_, by omega, houtlen, by simp, ?_, ?_, ?_, ?_, hout, ?_⟩
      · have h : r + 1 - wi = r - wi + 1 := by omega
        rw [h]
      · rw [hn2]
        ring
      · rw [hn2]
        exact hn3
      · rw [← hlen]
        exact hn4
      · intro h
        rcases hn5 h with h1 | h1
        · exact Or.inl (hlen ▸ h1)
        · exact Or.inr h1
      · intro h
        rw [hn6 h, hn2]
      · intro h hpos
        exact absurd (Or.inr (by omega)) hfl

theorem buffered_disk_io_solution_eq (d : Dimensions) (input : List Nat)
    (hlen : input.length = d.size) (hrc : d.rows * d.cols = d.size)
    (hcols : 0 < d.cols) (hrows : 0 < d.rows)
    (halign : d.cols ∣ BUFF_SIZE * 30 ∨ BUFF_SIZE * 30 ≤ d.cols ∨ d.size ≤ BUFF_SIZE * 30) :
    buffered_disk_io_solution d input = some (in_memory d input) := by
  obtain ⟨out, wi, consumed, filled, row_buff, hfold, _, _, houtlen, _, _, _, _, _,
    hout, hfin⟩ := buffered_fold_spec d input hlen hrc hcols halign d.rows le_rfl
  have hwi : wi = d.rows := hfin rfl hrows
  have heq : out = in_memory d input := by
    refine eq_of_length_and_getElem? houtlen (in_memory_length d input) (fun k hk => ?_)
    rw [hout k hk, in_memory_getElem? d input hrc k hk, hwi,
      if_pos (Nat.mod_lt k (by omega))]
  unfold buffered_disk_io_solution
  rw [hfold, heq]
  rfl

/-! ## Claim C1: cross-strategy equivalence -/

/-- C1 (counterexample): the dimensions `size = 0, rows = 1, cols = 0`
satisfy every hypothesis of the claim (`rows*cols = size`,
`rows ≥ cols`, input length `size`), and three strategies produce the
empty output, but `mmap_solution` fails (`memmap` cannot map a
zero-length file) and `buffered_disk_io_solution` panics
(`output_buff_buff.first().unwrap()` on an empty accumulator vector),
so the five strategies do not all produce byte-identical output. -/
theorem strategies_diverge_at_zero_size :
    ([] : List Nat).length = (Dimensions.mk 0 1 0).size ∧
    (Dimensions.mk 0 1 0).rows * (Dimensions.mk 0 1 0).cols = (Dimensions.mk 0 1 0).size ∧
    (Dimensions.mk 0 1 0).cols ≤ (Dimensions.mk 0 1 0).rows ∧
    in_memory ⟨0, 1, 0⟩ [] = [] ∧
    disk_io_solution ⟨0, 1, 0⟩ [] = [] ∧
    join_file_handles ⟨0, 1, 0⟩ [] = [] ∧
    mmap_solution ⟨0, 1, 0⟩ [] [] = none ∧
    buffered_disk_io_solution ⟨0, 1, 0⟩ [] = none := by decide

/-- C1 (amended): for every input of length `size` and dimensions with
`rows*cols = size`, `rows ≥ cols`, `size > 0` (a zero-length file
cannot be memory-mapped, and `cols = 0` panics the buffered strategy),
and the read-alignment condition
`cols ∣ 30720 ∨ 30720 ≤ cols ∨ size ≤ 30720` — under which every
`BufReader::read` of the buffered strategy returns a full `cols`-byte
row, `30720` being the reader's capacity — all five strategies produce
byte-identical output file contents: `mmap_solution` (for any prior
content of its non-truncated output file) and
`buffered_disk_io_solution` complete with exactly the bytes of
`in_memory`, and `disk_io_solution` and `join_file_handles` equal
`in_memory`.  Without the alignment condition the buffered strategy
short-reads at an internal fill boundary
(`bufReadStep_short_read_at_fill_boundary`) and its output is
corrupted by stale row-buffer bytes. -/
theorem strategies_byte_identical (d : Dimensions) (input : List Nat)
    (hlen : input.length = d.size) (hrc : d.rows * d.cols = d.size)
    (hconv : d.cols ≤ d.rows) (hpos : 0 < d.size)
    (halign : d.cols ∣ BUFF_SIZE * 30 ∨ BUFF_SIZE * 30 ≤ d.cols ∨ d.size ≤ BUFF_SIZE * 30) :
    (∀ prior : List Nat, mmap_solution d input prior = some (in_memory d input)) ∧
    disk_io_solution d input = in_memory d input ∧
    buffered_disk_io_solution d input = some (in_memory d input) ∧
    join_file_handles d input = in_memory d input := by
  have hcols : 0 < d.cols := by
    rcases Nat.eq_zero_or_pos d.cols with h | h
    · rw [h, Nat.mul_zero] at hrc
      omega
    · exact h
  have hrows : 0 < d.rows := by
    rcases Nat.eq_zero_or_pos d.rows with h | h
    · rw [h, Nat.zero_mul] at hrc
      omega
    · exact h
  refine ⟨fun prior => ?_, ?_,
    buffered_disk_io_solution_eq d input hlen hrc hcols hrows halign, ?_⟩
  · rw [mmap_solution_some d input prior (by omega) (by omega)]
    refine congrArg some ?_
    exact eq_of_length_and_getElem? (by rw [transposeLoop_length, length_setLen])
      (in_memory_length d input) (fun k hk => by
        rw [transposeLoop_getElem? _ _ _ _ (by rw [length_setLen, hrc]) k
            (by rw [hrc]; exact hk),
          in_memory_getElem? d input hrc k hk])
  · exact eq_of_length_and_getElem? (disk_io_solution_length d input)
      (in_memory_length d input) (fun k hk => by
        rw [disk_io_solution_getElem? d input hrc k hk,
          in_memory_getElem? d input hrc k hk])
  · exact eq_of_length_and_getElem? (join_file_handles_length d input)
      (in_memory_length d input) (fun k hk => by
        rw [join_file_handles_getElem? d input hlen hrc hconv k hk,
          in_memory_getElem? d input hrc k hk])

/-- Witness for C1 (amended) at `rows = cols = 2`, `input = [1,2,3,4]`
(here `size = 4 ≤ 30720`, so the alignment condition holds). -/
theorem strategies_byte_identical_witness :
    (∀ prior : List Nat,
      mmap_solution ⟨4, 2, 2⟩ [1, 2, 3, 4] prior =
        some (in_memory ⟨4, 2, 2⟩ [1, 2, 3, 4])) ∧
    disk_io_solution ⟨4, 2, 2⟩ [1, 2, 3, 4] = in_memory ⟨4, 2, 2⟩ [1, 2, 3, 4] ∧
    buffered_disk_io_solution ⟨4, 2, 2⟩ [1, 2, 3, 4] =
      some (in_memory ⟨4, 2, 2⟩ [1, 2, 3, 4]) ∧
    join_file_handles ⟨4, 2, 2⟩ [1, 2, 3, 4] = in_memory ⟨4, 2, 2⟩ [1, 2, 3, 4] :=
  strategies_byte_identical ⟨4, 2, 2⟩ [1, 2, 3, 4] (by decide) (by decide) (by decide)
    (by decide) (Or.inr (Or.inr (by decide)))

/-! ## Claim C9: double transpose -/

theorem in_memory_double_getElem? (d : Dimensions) (x : List Nat)
    (hrc : d.rows * d.cols = d.size) (k : Nat) (hk : k < d.size) :
    (in_memory d (in_memory d x))[k]? =
      some (x.getD
        ((((k % d.rows) * d.cols + k / d.rows) % d.rows) * d.cols +
          ((k % d.rows) * d.cols + k / d.rows) / d.rows) 0) := by
  rw [in_memory_getElem? d _ hrc k hk]
  have hg : (k % d.rows) * d.cols + k / d.rows < d.size := by
    rw [← hrc]
    have hr : 0 < d.rows := by
      by_contra h
      rw [← hrc] at hk
      have : d.rows = 0 := by omega
      rw [this] at hk
      simp at hk
    have h1 : (k % d.rows) * d.cols + k / d.rows < d.cols * d.rows :=
      decompose_lt (Nat.div_lt_of_lt_mul (by rw [hrc]; exact hk)) (Nat.mod_lt k hr)
    rw [Nat.mul_comm d.cols d.rows] at h1
    exact h1
  rw [List.getD_eq_getElem?_getD, in_memory_getElem? d x hrc _ hg]
  rfl

theorem double_idx_id (rows cols k : Nat) (hk : k < rows * cols)
    (hsq : rows = cols ∨ cols ≤ 1) :
    (((k % rows) * cols + k / rows) % rows) * cols +
      ((k % rows) * cols + k / rows) / rows = k := by
  have hr : 0 < rows := by
    rcases Nat.eq_zero_or_pos rows with h | h
    · subst h; simp at hk
    · exact h
  have hmlt : k % rows < rows := Nat.mod_lt k hr
  have hdlt : k / rows < cols := Nat.div_lt_of_lt_mul hk
  rcases hsq with h | h
  · subst h
    rw [mod_of_decompose hdlt, div_of_decompose hdlt]
    rw [Nat.mul_comm]
    exact Nat.div_add_mod k rows
  · have hc1 : cols = 1 := by
      rcases Nat.eq_zero_or_pos cols with h0 | h0
      · subst h0; simp at hk
      · omega
    subst hc1
    have hks : k < rows := by
      have h1 : rows * 1 = rows := by ring
      omega
    have h1 : k % rows = k := Nat.mod_eq_of_lt hks
    have h2 : k / rows = 0 := Nat.div_eq_of_lt hks
    rw [h1, h2]
    have h3 : k * 1 + 0 = k := by ring
    rw [h3, h1, h2, h3]

/-- C9 (counterexample): with `Dimensions ⟨2, 2, 1⟩` (`rows = 2`,
`cols = 1`, non-square, satisfying `rows*cols = size` and
`rows ≥ cols`) the flat layout of a column vector and its transposed
row vector coincide, so the double transpose equals the original for
*every* input — refuting both the "only if square" direction and the
claimed existence of a differing input for every non-square
dimensions. -/
theorem double_transpose_c9_counterexample :
    (∀ x : List Nat, x.length = 2 →
      in_memory ⟨2, 2, 1⟩ (in_memory ⟨2, 2, 1⟩ x) = x) ∧
    (2 : Nat) ≠ 1 ∧ 2 * 1 = (2 : Nat) ∧ (1 : Nat) ≤ 2 := by
  refine ⟨fun x hx => ?_, by decide, by decide, by decide⟩
  refine eq_of_length_and_getElem? (in_memory_length _ _) hx (fun k hk => ?_)
  have hk2 : k < 2 := hk
  rw [in_memory_double_getElem? ⟨2, 2, 1⟩ x (by decide) k hk,
    double_idx_id 2 1 k (by omega) (Or.inr (by omega)),
    List.getD_eq_getElem?_getD, List.getElem?_eq_getElem (by omega : k < x.length)]
  rfl

/-- C9 (amended): under the `rows ≥ cols` convention, applying the
`in_memory` transpose twice with the same dimensions returns every
input unchanged *iff* the matrix is square **or** `cols ≤ 1` (for
`cols = 1` the flat transpose is the identity); equivalently, a
differing input exists exactly when `rows > cols ≥ 2` (the reverse
direction of the iff produces it from `List.range size`). -/
theorem double_transpose_identity_iff (d : Dimensions)
    (hrc : d.rows * d.cols = d.size) (hconv : d.cols ≤ d.rows) :
    (∀ x : List Nat, x.length = d.size → in_memory d (in_memory d x) = x) ↔
      (d.rows = d.cols ∨ d.cols ≤ 1) := by
  constructor
  · intro hid
    by_contra hnot
    push_neg at hnot
    obtain ⟨hne, hc2⟩ := hnot
    have hc2' : 2 ≤ d.cols := by omega
    have hrgt : d.cols < d.rows := lt_of_le_of_ne hconv (fun h => hne h.symm)
    have hk1 : 1 < d.size := by
      rw [← hrc]
      have h4 : 2 * 2 ≤ d.rows * d.cols := Nat.mul_le_mul (by omega) (by omega)
      omega
    have hx := hid (List.range d.size) (by simp)
    have h1 := congrArg (fun l => l[1]?) hx
    simp only at h1
    rw [in_memory_double_getElem? d _ hrc 1 (by omega)] at h1
    have e1 : 1 % d.rows = 1 := Nat.mod_eq_of_lt (by omega)
    have e2 : 1 / d.rows = 0 := Nat.div_eq_of_lt (by omega)
    rw [e1, e2] at h1
    have e3 : 1 * d.cols + 0 = d.cols := by ring
    rw [e3] at h1
    have e4 : d.cols % d.rows = d.cols := Nat.mod_eq_of_lt (by omega)
    have e5 : d.cols / d.rows = 0 := Nat.div_eq_of_lt (by omega)
    rw [e4, e5] at h1
    have hcc : d.cols * d.cols < d.size := by
      rw [← hrc]
      have h5 : d.cols * d.cols < d.rows * d.cols :=
        Nat.mul_lt_mul_of_lt_of_le hrgt le_rfl (by omega)
      exact h5
    have e6 : d.cols * d.cols + 0 = d.cols * d.cols := by ring
    rw [List.getElem?_range (by omega : 1 < d.size),
      List.getD_eq_getElem?_getD, e6, List.getElem?_range hcc] at h1
    have h6 : d.cols * d.cols = 1 := by
      have h7 := Option.some.inj h1
      simpa using h7
    have h8 : 2 * 2 ≤ d.cols * d.cols := Nat.mul_le_mul (by omega) (by omega)
    omega
  · intro hsq x hxlen
    refine eq_of_length_and_getElem? (in_memory_length d (in_memory d x)) hxlen
      (fun k hk => ?_)
    rw [in_memory_double_getElem? d x hrc k hk,
      double_idx_id d.rows d.cols k (by rw [hrc]; exact hk) hsq,
      List.getD_eq_getElem?_getD, List.getElem?_eq_getElem (by omega : k < x.length)]
    rfl

/-- Witness for C9 (amended) at the square `rows = cols = 2`. -/
theorem double_transpose_identity_iff_witness :
    (∀ x : List Nat, x.length = 4 →
      in_memory ⟨4, 2, 2⟩ (in_memory ⟨4, 2, 2⟩ x) = x) ↔
      ((2 : Nat) = 2 ∨ (2 : Nat) ≤ 1) :=
  double_transpose_identity_iff ⟨4, 2, 2⟩ (by decide) (by decide)

/-- Witness for C6 at `log2_size = 10`. -/
theorem planner_invariants_witness :
    (planDimensions 10).size = 2 ^ 10 ∧
    (planDimensions 10).rows = nextPowerOfTwo (ceilSqrt ((planDimensions 10).size)) ∧
    (planDimensions 10).cols = (planDimensions 10).size / (planDimensions 10).rows ∧
    (planDimensions 10).rows * (planDimensions 10).cols = (planDimensions 10).size ∧
    (planDimensions 10).cols ≤ (planDimensions 10).rows :=
  planner_invariants 10 (by omega)
